import Mathlib

/-!
Shallow embedding of the transform library in `src/preprocessing.py` and of the
error-handling shape of the CLI dispatcher in `src/cli.py`.

Modelling conventions:
* Python scalars that may appear in the library's heterogeneous sequences are
  the inductive type `PyVal`.  Finite floats are modelled as rationals; the
  distinguished value `float('nan')` is a separate constructor (it never
  compares equal to any number).  Booleans are a separate constructor because
  Python's `bool` is a subtype of `int`: numeric comparison treats `True` as 1
  and `False` as 0, which the model reproduces through `numVal`.
* Purely numeric functions (`normalize_min_max`, `standardize_zscore`,
  `clip_values`) coerce their input through `np.array(values, dtype=float)`;
  they are embedded over `List ℚ`, the exact-value model of a float array.
* Functions that can raise return `Option`: `none` is a raised exception.
  `normalize_min_max` applied to `[]` evaluates `np.min` on a zero-size array,
  which raises `ValueError`; this is the one `none` case in the library.
* `math.log` and the float operation `d / math.sqrt v` are external primitives
  of the host; they are passed in as function parameters (`lnFn`, `stdDiv`) so
  that every definition stays computable.  The filtering and control flow —
  everything the source file itself contributes — is embedded concretely.
* Text is `List Char`, restricted in the theorems to ASCII where Python's
  Unicode behaviour (`str.lower`, `\w`) would otherwise diverge.
-/

/-- Python scalar values as they occur in this library's sequences. -/
inductive PyVal where
  | none : PyVal
  | bool (b : Bool) : PyVal
  | int (n : Int) : PyVal
  | float (q : ℚ) : PyVal
  | nan : PyVal
  | str (s : String) : PyVal
deriving DecidableEq, Repr

/-- Numeric value of a scalar under Python comparison: `bool` counts as 0/1
(`bool` is a subtype of `int`), `int` and `float` compare by value, and `nan`,
`None` and strings have no numeric value (`nan` is unequal to every number). -/
def numVal : PyVal → Option ℚ
  | .bool b => some (if b then 1 else 0)
  | .int n => some (n : ℚ)
  | .float q => some q
  | _ => Option.none

/-- Python `==`/dict-key equivalence on scalars: numeric values compare by
value across `bool`/`int`/`float`; everything else compares structurally.
Identifying the two `nan` constructors models the fact that the repeated
`np.nan` is a single object and dict lookup short-circuits on identity. -/
def pyEq (x y : PyVal) : Bool :=
  match numVal x, numVal y with
  | some a, some b => a = b
  | Option.none, Option.none => x = y
  | _, _ => false

/-- Missing-value test shared by `remove_missing_values` and
`fill_missing_values`: `x is None or x == '' or (isinstance(x, float) and
math.isnan(x))`.  Only the empty string compares `==` to `''`. -/
def isMissing : PyVal → Bool
  | .none => true
  | .str s => s = ""
  | .nan => true
  | _ => false

/-- Embedding of `remove_missing_values`: keep every element that is not a
missing marker, preserving order. -/
def remove_missing_values (list_of_values : List PyVal) : List PyVal :=
  list_of_values.filter (fun x => !isMissing x)

/-- Embedding of `fill_missing_values`: replace each missing element
positionally with `fill_value`. -/
def fill_missing_values (list_of_values : List PyVal) (fill_value : PyVal) : List PyVal :=
  list_of_values.map (fun x => if isMissing x then fill_value else x)

/-- Worker for `remove_duplicated_values`: `dict.fromkeys` keeps the first
occurrence of every key, where key equivalence is Python `==` (`pyEq`).
`seen` is the set of keys already inserted. -/
def dedupAux (seen : List PyVal) : List PyVal → List PyVal
  | [] => []
  | x :: xs =>
    if seen.any (fun s => pyEq s x) then dedupAux seen xs
    else x :: dedupAux (x :: seen) xs

/-- Embedding of `remove_duplicated_values`, i.e. `list(dict.fromkeys(l))`. -/
def remove_duplicated_values (list_of_values : List PyVal) : List PyVal :=
  dedupAux [] list_of_values

/-- Embedding of `normalize_min_max`.  On the empty list `np.min` raises
`ValueError` (zero-size reduction), modelled as `Option.none`.  Otherwise the
code rescales elementwise, short-circuiting to `[new_min] * len(arr)` when
`min_val == max_val`. -/
def normalize_min_max (values : List ℚ) (new_min new_max : ℚ) : Option (List ℚ) :=
  match values with
  | [] => Option.none
  | v :: vs =>
    let min_val := vs.foldl min v
    let max_val := vs.foldl max v
    if min_val = max_val then some (List.replicate (v :: vs).length new_min)
    else some ((v :: vs).map (fun x =>
      (x - min_val) / (max_val - min_val) * (new_max - new_min) + new_min))

/-- Embedding of `standardize_zscore`.  `np.mean`/`np.std` of a zero-size
array are `nan` (a warning, not an exception) and mapping over the empty array
yields `[]`; `std == 0` is equivalent to zero variance, checked exactly on ℚ.
`stdDiv d v` is the external float operation `d / sqrt v` used on the
non-degenerate branch. -/
def standardize_zscore (stdDiv : ℚ → ℚ → ℝ) (values : List ℚ) : List ℝ :=
  match values with
  | [] => []
  | _ =>
    let n : ℚ := values.length
    let mean := values.sum / n
    let var := (values.map (fun x => (x - mean) * (x - mean))).sum / n
    if var = 0 then List.replicate values.length 0
    else values.map (fun x => stdDiv (x - mean) var)

/-- Embedding of `clip_values`.  `np.clip(a, a_min, a_max)` computes
`np.minimum(a_max, np.maximum(a, a_min))`; when `a_min > a_max` every output
equals `a_max`.  It never raises. -/
def clip_values (values : List ℚ) (min_val max_val : ℚ) : List ℚ :=
  values.map (fun x => min max_val (max x min_val))

/-- Clamp formula stated from the spec's words for comparison with the code:
`max(min(x, max_bound), min_bound)` applied elementwise. -/
def clipSpecFormula (values : List ℚ) (min_val max_val : ℚ) : List ℚ :=
  values.map (fun x => max (min x max_val) min_val)

/-- Embedding of `convert_to_integers`.  `floatParse v` models the builtin
`float(v)` call: `some q` on success, `Option.none` when it raises
`ValueError`/`TypeError` (the element is then skipped).  A parsed value is
kept iff it `is_integer()`, i.e. has denominator 1, and is truncated to `int`. -/
def convert_to_integers (floatParse : PyVal → Option ℚ) (values : List PyVal) : List Int :=
  values.filterMap (fun v =>
    match floatParse v with
    | Option.none => Option.none
    | some q => if q.den = 1 then some q.num else Option.none)

/-- Filter clause of `log_transform`: an element is kept iff
`isinstance(x, (int, float)) and x > 0`.  `bool` is a subtype of `int`, so
`True` (value 1) passes and `False` (value 0) does not; `nan` is a float but
`nan > 0` is false; strings and `None` fail the isinstance test. -/
def logKeep : PyVal → Option ℚ
  | .bool b => if b then some 1 else Option.none
  | .int n => if 0 < n then some (n : ℚ) else Option.none
  | .float q => if 0 < q then some q else Option.none
  | _ => Option.none

/-- Embedding of `log_transform`: `[math.log(x) for x in values if ...]`.
`lnFn` is the external `math.log` primitive on the kept exact values. -/
def log_transform (lnFn : ℚ → ℝ) (values : List PyVal) : List ℝ :=
  (values.filterMap logKeep).map lnFn

/-- ASCII alphanumeric, the character class `[a-zA-Z0-9]` of the tokenizer. -/
def isAsciiAlnum (c : Char) : Bool := c.isAlpha || c.isDigit

/-- Word character of Python's `re` (`\w`) restricted to ASCII:
alphanumerics and the underscore.  (Python's `\w` additionally covers
non-ASCII word characters; the theorems below restrict inputs to ASCII.) -/
def isWordChar (c : Char) : Bool := isAsciiAlnum c || c = '_'

/-- ASCII lower-casing, the effect of `str.lower()` on ASCII text. -/
def lowerChar (c : Char) : Char :=
  if 'A' ≤ c ∧ c ≤ 'Z' then Char.ofNat (c.toNat + 32) else c

/-- Maximal runs of characters satisfying `p`, in order; characters failing
`p` act as separators and are discarded.  When the current character and the
next both satisfy `p`, the current character is prepended to the run the
recursive call started at the next character. -/
def runsBy (p : Char → Bool) : List Char → List (List Char)
  | [] => []
  | c :: cs =>
    let rest := runsBy p cs
    if p c then
      match cs with
      | [] => [[c]]
      | d :: _ => if p d then (c :: rest.headD []) :: rest.tail else [c] :: rest
    else rest

/-- Embedding of `tokenize_text`, i.e.
`re.findall(r'\b[a-zA-Z0-9]+\b', text.lower())`.  A match of this pattern is
exactly a maximal run of word characters (`\w`) that consists entirely of
`[a-zA-Z0-9]`: since `[a-zA-Z0-9] ⊆ \w`, a match must start and end at a word
boundary, and a maximal word run containing a word character outside the class
(such as `_`) produces no match at all because no boundary exists inside the
run. -/
def tokenize_text (text : List Char) : List (List Char) :=
  (runsBy isWordChar (text.map lowerChar)).filter (fun run => run.all isAsciiAlnum)

/-- Tokenizer stated from the spec's words, for comparison with the code:
lower-case the input, then return the maximal runs of ASCII alphanumeric
characters, all punctuation and whitespace acting as separators. -/
def specTokenize (text : List Char) : List (List Char) :=
  runsBy isAsciiAlnum (text.map lowerChar)

/-- Embedding of `keep_alphanumeric_and_spaces`:
`re.sub(r'[^A-Za-z0-9 ]+', '', text)` deletes every character that is not an
ASCII alphanumeric or a plain space. -/
def keep_alphanumeric_and_spaces (text : List Char) : List Char :=
  text.filter (fun c => isAsciiAlnum c || c = ' ')

/-- Embedding of `remove_stopwords`: lower-case, split on whitespace runs,
drop words found in `stopwords`, re-join with single spaces. -/
def remove_stopwords (text : List Char) (stopwords : List (List Char)) : List Char :=
  let words := runsBy (fun c => !c.isWhitespace) (text.map lowerChar)
  List.intercalate [' '] (words.filter (fun w => !stopwords.contains w))

/-- Embedding of `flatten_list`:
`[item for sublist in list_of_lists for item in sublist]`. -/
def flatten_list (list_of_lists : List (List PyVal)) : List PyVal :=
  list_of_lists.flatten

/-- Python's parallel assignment `x[i], x[j] = x[j], x[i]` on list indices
that are in range (out-of-range indices never occur in `random.shuffle`). -/
def listSwap {α : Type} (l : List α) (i j : Nat) : List α :=
  match l[i]?, l[j]? with
  | some a, some b => (l.set i b).set j a
  | _, _ => l

/-- Fisher–Yates loop of `random.Random.shuffle`:
`for i in reversed(range(1, len(x))): j = randbelow(i + 1); swap x[i] x[j]`.
`stream i` models the generator draw made at loop index `i`; reducing it
mod `i + 1` reproduces the contract of `_randbelow(i + 1)`, a value in
`[0, i]`.  The permutation facts below hold for every stream. -/
def fyLoop {α : Type} (stream : Nat → Nat) (l : List α) : Nat → List α
  | 0 => l
  | i + 1 => fyLoop stream (listSwap l (i + 1) (stream (i + 1) % (i + 2))) i

/-- Modelled from the spec: the draw stream of CPython's seeded Mersenne
Twister (`random.Random(seed)`), library code that is not part of this
repository.  The spec requires only an algorithm-independent contract — the
stream is a deterministic function of the seed — so any fixed computable
function of the seed is a faithful stand-in; the theorems about `shuffle_list`
do not depend on the values drawn. -/
def mtStream (seed : Int) : Nat → Nat :=
  fun k => (seed.natAbs * 6364136223846793005 + k * 1442695040888963407) % 2 ^ 64

/-- Embedding of `shuffle_list`.  The code copies the input (`values[:]`),
builds a local generator `random.Random(seed)` and shuffles the copy in place;
the model is pure, so the copy is implicit and the caller's list is untouched
by construction.  With `seed = some s` the generator's stream is the
deterministic `mtStream s`; with `seed = none` CPython seeds from ambient
entropy, modelled by the explicit `entropy` stream argument. -/
def shuffle_list {α : Type} (values : List α) (seed : Option Int) (entropy : Nat → Nat) :
    List α :=
  let stream := match seed with
    | some s => mtStream s
    | Option.none => entropy
  fyLoop stream values (values.length - 1)

/-- Decidable check that a rendered message contains the literal substring
`Error` (scans every suffix for the five-character run). -/
def containsError (s : String) : Bool :=
  (List.range s.toList.length).any
    (fun i => (s.toList.drop i).take 5 == ['E', 'r', 'r', 'o', 'r'])

/-- Outcome of `json.loads` on the CLI's raw VALUES argument, the only input
distinction the dispatcher's handlers make before calling the library. -/
inductive DecodeResult (α : Type) where
  | jsonError : DecodeResult α
  | ok (values : α) : DecodeResult α

/-- Observable outcome of one CLI command: rendered stdout lines, rendered
stderr lines, and the process exit status (a `click` command whose callback
returns normally exits with status 0; all handlers below catch and return). -/
structure CliOutput where
  stdout : List String
  stderr : List String
  exitCode : Nat
deriving DecidableEq, Repr

/-- Embedding of the CLI command `clean remove-missing` (`cli.remove_missing`):
decode failure prints the JSON error message on stderr and falls through to a
normal return (exit 0); `remove_missing_values` itself never raises. -/
def cli_remove_missing (input : DecodeResult (List PyVal)) : CliOutput :=
  match input with
  | .jsonError => ⟨[], ["Error: VALUES must be a valid JSON array"], 0⟩
  | .ok vs => ⟨["Result: " ++ toString (repr (remove_missing_values vs))], [], 0⟩

/-- Embedding of the CLI command `numeric normalize` (`cli.normalize`): decode
failure prints the JSON error; an exception raised inside the transform
(`normalize_min_max` on `[]`) is caught by `except Exception` and rendered as
`Error: {e}` on stderr.  Both handlers return normally, so the exit status is
0 in every case. -/
def cli_normalize (input : DecodeResult (List ℚ)) (new_min new_max : ℚ) : CliOutput :=
  match input with
  | .jsonError => ⟨[], ["Error: VALUES must be a valid JSON array"], 0⟩
  | .ok vs =>
    match normalize_min_max vs new_min new_max with
    | Option.none =>
      ⟨[], ["Error: zero-size array to reduction operation minimum which has no identity"], 0⟩
    | some r => ⟨["Result: " ++ toString r], [], 0⟩


/-! ## Helper lemmas -/

theorem charLe_toNat {a b : Char} (h : a ≤ b) : a.toNat ≤ b.toNat := by
  exact h

theorem lowerChar_toNat_of_upper {c : Char} (h : 'A' ≤ c ∧ c ≤ 'Z') :
    (lowerChar c).toNat = c.toNat + 32 := by
  have h1 : c.toNat ≤ 90 := charLe_toNat h.2
  have hv : Nat.isValidChar (c.toNat + 32) := Or.inl (by omega)
  have hv2 : (c.val.toNat + 32).isValidChar := hv
  rw [lowerChar, if_pos h]
  simp only [Char.ofNat, Char.toNat]
  rw [dif_pos hv2]
  rfl

theorem lowerChar_ne_underscore {c : Char} (h : c ≠ '_') : lowerChar c ≠ '_' := by
  by_cases hc : 'A' ≤ c ∧ c ≤ 'Z'
  · intro hbad
    have h1 : c.toNat ≥ 65 := charLe_toNat hc.1
    have h2 : (lowerChar c).toNat = c.toNat + 32 := lowerChar_toNat_of_upper hc
    rw [hbad] at h2
    have h3 : ('_' : Char).toNat = 95 := rfl
    omega
  · simpa [lowerChar, hc] using h

/-! ## C1 -/

/-- C1: the claim says every transform function maps an empty sequence/string
to an empty one without raising; this holds for every function except
`normalize_min_max`, where `np.min` on the zero-size array raises
`ValueError` (`Option.none` in the model), contradicting the claim and the
repository's own tests. -/
theorem c1_empty_transforms :
    ∀ (stdDiv : ℚ → ℚ → ℝ) (floatParse : PyVal → Option ℚ) (lnFn : ℚ → ℝ)
      (new_min new_max lo hi : ℚ) (fill : PyVal) (sw : List (List Char))
      (seed : Option Int) (entropy : Nat → Nat),
      normalize_min_max [] new_min new_max = Option.none ∧
      remove_missing_values [] = [] ∧
      fill_missing_values [] fill = [] ∧
      remove_duplicated_values [] = [] ∧
      standardize_zscore stdDiv [] = [] ∧
      clip_values [] lo hi = [] ∧
      convert_to_integers floatParse [] = [] ∧
      log_transform lnFn [] = [] ∧
      tokenize_text [] = [] ∧
      keep_alphanumeric_and_spaces [] = [] ∧
      remove_stopwords [] sw = [] ∧
      flatten_list [] = [] ∧
      shuffle_list ([] : List PyVal) seed entropy = [] := by
  intros
  refine ⟨rfl, rfl, rfl, rfl, rfl, rfl, rfl, rfl, rfl, rfl, rfl, rfl, rfl⟩

/-! ## C2 -/

/-- C2: seeded shuffling is fully deterministic and reproducible: with the
same seed and the same input list, the result does not depend on the ambient
entropy available to the process, so two calls agree. -/
theorem c2_shuffle_seeded_deterministic {α : Type} :
    ∀ (values : List α) (s : Int) (entropy₁ entropy₂ : Nat → Nat),
      shuffle_list values (some s) entropy₁ = shuffle_list values (some s) entropy₂ := by
  intros
  rfl

/-! ## C4 -/

/-- C4: when the minimum of the input equals its maximum (in particular for
every single-element list), `normalize_min_max` returns a list of the same
length whose entries all equal `new_min`; concretely,
`normalize_min_max [5] 0 1 = [0.0]`. -/
theorem c4_normalize_degenerate (v : ℚ) (vs : List ℚ) (new_min new_max : ℚ)
    (h : vs.foldl min v = vs.foldl max v) :
    normalize_min_max (v :: vs) new_min new_max
      = some (List.replicate (v :: vs).length new_min) ∧
    normalize_min_max [5] 0 1 = some [0] := by
  constructor
  · simp only [normalize_min_max, h, if_pos]
  · rfl

/-- Witness for `c4_normalize_degenerate` at the single-element input `[5]`. -/
theorem c4_normalize_degenerate_witness :
    ([] : List ℚ).foldl min 5 = ([] : List ℚ).foldl max 5 ∧
    normalize_min_max [5] 0 1 = some (List.replicate [5].length (0 : ℚ)) :=
  ⟨rfl, (c4_normalize_degenerate 5 [] 0 1 rfl).1⟩

/-! ## C8 -/

/-- C8 counterexample: with `min_val = 5 > max_val = 2` the code
(`np.clip`, i.e. `min(max(x, min_val), max_val)`) maps `0` to `2`, while the
claim's formula `max(min(x, max_bound), min_bound)` maps it to `5`; the two
disagree, so `clip` is not equivalent to the claimed formula. -/
theorem c8_counterexample :
    clip_values [0] 5 2 = [2] ∧ clipSpecFormula [0] 5 2 = [5] ∧
    clip_values [0] 5 2 ≠ clipSpecFormula [0] 5 2 := by
  refine ⟨?_, ?_, ?_⟩ <;> norm_num [clip_values, clipSpecFormula]

/-- C8 amended: `clip_values` never raises (it is total) and clamps
elementwise in the fixed order `min(max(x, min_val), max_val)` — clamp to the
lower bound first, then to the upper bound — so when `min_val` exceeds
`max_val` every output equals `max_val`; for ordinary bounds
`clip([1,5,10,15], 2, 8) = [2,5,8,8]`. -/
theorem c8_clip_fixed_order :
    ∀ (values : List ℚ) (lo hi : ℚ),
      clip_values values lo hi = values.map (fun x => min (max x lo) hi) ∧
      (hi < lo → clip_values values lo hi = List.replicate values.length hi) ∧
      clip_values [1, 5, 10, 15] 2 8 = [2, 5, 8, 8] := by
  intro values lo hi
  refine ⟨?_, ?_, ?_⟩
  · simp only [clip_values]
    exact List.map_congr_left (fun x _ => min_comm hi (max x lo))
  · intro hlt
    have : ∀ x : ℚ, min hi (max x lo) = hi := by
      intro x
      exact min_eq_left (le_trans (le_of_lt hlt) (le_max_right x lo))
    simp only [clip_values, this, List.map_const']
  · norm_num [clip_values]

/-- Witness for `c8_clip_fixed_order` with inverted bounds `lo = 5 > hi = 2`. -/
theorem c8_clip_fixed_order_witness :
    (2 : ℚ) < 5 ∧ clip_values [0] 5 2 = List.replicate [(0 : ℚ)].length 2 :=
  ⟨by norm_num, (c8_clip_fixed_order [0] 5 2).2.1 (by norm_num)⟩

/-! ## C9 -/

/-- C9 counterexample: on invalid JSON the `normalize` command prints an
`Error` message on the error stream but the handler swallows the exception and
the command returns normally, so the process exits with the success status 0 —
contradicting the claim that it must not exit with a success status. -/
theorem c9_counterexample :
    (cli_normalize .jsonError 0 1).exitCode = 0 ∧
    (cli_normalize .jsonError 0 1).stderr.any containsError = true := by
  exact ⟨rfl, by decide⟩

/-- C9 amended: on invalid JSON input or on an exception raised inside the
transform, the dispatcher writes a message containing the substring `Error` to
the error stream, but it exits with the success status code 0 (the handlers
catch the exception and return normally); successful runs write nothing to the
error stream. -/
theorem c9_error_rendering :
    ∀ (new_min new_max : ℚ) (vs : List ℚ) (pvs : List PyVal),
      ((cli_normalize .jsonError new_min new_max).stderr.any containsError = true ∧
        (cli_normalize .jsonError new_min new_max).exitCode = 0) ∧
      (normalize_min_max vs new_min new_max = Option.none →
        (cli_normalize (.ok vs) new_min new_max).stderr.any containsError = true ∧
        (cli_normalize (.ok vs) new_min new_max).exitCode = 0) ∧
      ((cli_remove_missing .jsonError).stderr.any containsError = true ∧
        (cli_remove_missing .jsonError).exitCode = 0) ∧
      ((cli_remove_missing (.ok pvs)).stderr = [] ∧
        (cli_remove_missing (.ok pvs)).exitCode = 0) := by
  intro new_min new_max vs pvs
  refine ⟨⟨?_, rfl⟩, ?_, ⟨?_, rfl⟩, ⟨rfl, rfl⟩⟩
  · show (["Error: VALUES must be a valid JSON array"] : List String).any containsError = true
    decide
  · intro h
    rw [cli_normalize, h]
    exact ⟨by decide, rfl⟩
  · decide

/-- Witness for `c9_error_rendering` at the raising input `[]` of
`normalize_min_max`. -/
theorem c9_error_rendering_witness :
    normalize_min_max [] 0 1 = Option.none ∧
    (cli_normalize (.ok []) 0 1).exitCode = 0 :=
  ⟨rfl, ((c9_error_rendering 0 1 [] []).2.1 rfl).2⟩

/-! ## C10 -/

/-- C10: `log_transform` treats booleans as numbers: `True` passes the
`isinstance(x, (int, float)) and x > 0` filter with value 1 and contributes
`log 1 = 0.0` in order, while `False`, strings, `None`, `nan` and every
non-positive number are skipped without error; positive floats contribute
their logarithm in order. -/
theorem c10_log_transform_bool :
    ∀ (rest : List PyVal),
      log_transform (fun q : ℚ => Real.log q) (.bool true :: rest) = 0 :: log_transform (fun q : ℚ => Real.log q) rest ∧
      log_transform (fun q : ℚ => Real.log q) (.bool false :: rest) = log_transform (fun q : ℚ => Real.log q) rest ∧
      (∀ s : String, log_transform (fun q : ℚ => Real.log q) (.str s :: rest) = log_transform (fun q : ℚ => Real.log q) rest) ∧
      log_transform (fun q : ℚ => Real.log q) (.none :: rest) = log_transform (fun q : ℚ => Real.log q) rest ∧
      log_transform (fun q : ℚ => Real.log q) (.nan :: rest) = log_transform (fun q : ℚ => Real.log q) rest ∧
      (∀ q : ℚ, q ≤ 0 →
        log_transform (fun q : ℚ => Real.log q) (.float q :: rest) = log_transform (fun q : ℚ => Real.log q) rest) ∧
      (∀ n : Int, n ≤ 0 →
        log_transform (fun q : ℚ => Real.log q) (.int n :: rest) = log_transform (fun q : ℚ => Real.log q) rest) ∧
      (∀ q : ℚ, 0 < q →
        log_transform (fun q : ℚ => Real.log q) (.float q :: rest)
          = Real.log (q : ℝ) :: log_transform (fun q : ℚ => Real.log q) rest) := by
  intro rest
  refine ⟨?_, ?_, ?_, ?_, ?_, ?_, ?_, ?_⟩
  · simp [log_transform, logKeep]
  · simp [log_transform, logKeep]
  · intro s; simp [log_transform, logKeep]
  · simp [log_transform, logKeep]
  · simp [log_transform, logKeep]
  · intro q hq; simp [log_transform, logKeep, not_lt.mpr hq]
  · intro n hn; simp [log_transform, logKeep, not_lt.mpr hn]
  · intro q hq; simp [log_transform, logKeep, hq]

/-- Witness for `c10_log_transform_bool` at concrete skipped and kept
values. -/
theorem c10_log_transform_bool_witness :
    (-1 : ℚ) ≤ 0 ∧ (-2 : Int) ≤ 0 ∧ (0 : ℚ) < 2 ∧
    log_transform (fun q : ℚ => Real.log q) [.float (-1)] = log_transform (fun q : ℚ => Real.log q) [] ∧
    log_transform (fun q : ℚ => Real.log q) [.int (-2)] = log_transform (fun q : ℚ => Real.log q) [] ∧
    log_transform (fun q : ℚ => Real.log q) [.float 2] = Real.log ((2 : ℚ) : ℝ) :: log_transform (fun q : ℚ => Real.log q) [] :=
  ⟨by norm_num, by norm_num, by norm_num,
    (c10_log_transform_bool []).2.2.2.2.2.1 (-1) (by norm_num),
    (c10_log_transform_bool []).2.2.2.2.2.2.1 (-2) (by norm_num),
    (c10_log_transform_bool []).2.2.2.2.2.2.2 2 (by norm_num)⟩

/-! ## C5 -/

theorem pyEq_refl (x : PyVal) : pyEq x x = true := by
  cases x <;> simp [pyEq, numVal]

theorem pyEq_symm (x y : PyVal) : pyEq x y = pyEq y x := by
  cases x <;> cases y <;> simp [pyEq, numVal, eq_comm]

theorem pyEq_trans {x y z : PyVal} (h1 : pyEq x y = true) (h2 : pyEq y z = true) :
    pyEq x z = true := by
  cases x <;> cases y <;> cases z <;> simp_all [pyEq, numVal]

theorem dedupAux_sublist (l : List PyVal) : ∀ seen, (dedupAux seen l).Sublist l := by
  induction l with
  | nil => intro seen; simp [dedupAux]
  | cons x xs ih =>
    intro seen
    rw [dedupAux]
    by_cases h : seen.any (fun s => pyEq s x) = true
    · simp only [h, if_true]
      exact (ih seen).cons x
    · simp only [h, if_false]
      exact (ih (x :: seen)).cons₂ x

theorem dedupAux_not_seen (l : List PyVal) :
    ∀ seen x, x ∈ dedupAux seen l → seen.any (fun s => pyEq s x) = false := by
  induction l with
  | nil => intro seen x hx; simp [dedupAux] at hx
  | cons y ys ih =>
    intro seen x hx
    rw [dedupAux] at hx
    by_cases h : seen.any (fun s => pyEq s y) = true
    · simp only [h, if_true] at hx
      exact ih seen x hx
    · simp only [h, if_false] at hx
      rcases List.mem_cons.mp hx with rfl | hx'
      · exact Bool.not_eq_true _ ▸ (by simpa using h)
      · have h2 := ih (y :: seen) x hx'
        simp only [List.any_cons, Bool.or_eq_false_iff] at h2
        exact h2.2

theorem dedupAux_pairwise (l : List PyVal) :
    ∀ seen, (dedupAux seen l).Pairwise (fun a b => pyEq a b = false) := by
  induction l with
  | nil => intro seen; simp [dedupAux]
  | cons y ys ih =>
    intro seen
    rw [dedupAux]
    by_cases h : seen.any (fun s => pyEq s y) = true
    · simp only [h, if_true]
      exact ih seen
    · simp only [h, if_false]
      refine List.Pairwise.cons ?_ (ih (y :: seen))
      intro b hb
      have h2 := dedupAux_not_seen ys (y :: seen) b hb
      simp only [List.any_cons, Bool.or_eq_false_iff] at h2
      exact h2.1

theorem dedupAux_eq_self (l : List PyVal) :
    ∀ seen, (∀ x ∈ l, seen.any (fun s => pyEq s x) = false) →
      l.Pairwise (fun a b => pyEq a b = false) → dedupAux seen l = l := by
  induction l with
  | nil => intro seen _ _; rfl
  | cons y ys ih =>
    intro seen hseen hpw
    rw [dedupAux]
    have hy : seen.any (fun s => pyEq s y) = false := hseen y (by simp)
    simp only [hy, if_neg Bool.false_ne_true]
    congr 1
    refine ih (y :: seen) ?_ (List.Pairwise.of_cons hpw)
    intro x hx
    simp only [List.any_cons, Bool.or_eq_false_iff]
    exact ⟨(List.pairwise_cons.mp hpw).1 x hx, hseen x (List.mem_cons_of_mem y hx)⟩

theorem dedupAux_covers (l : List PyVal) :
    ∀ seen x, x ∈ l → seen.any (fun s => pyEq s x) = false →
      (dedupAux seen l).any (fun r => pyEq r x) = true := by
  induction l with
  | nil => intro seen x hx; simp at hx
  | cons y ys ih =>
    intro seen x hx hfree
    rw [dedupAux]
    by_cases h : seen.any (fun s => pyEq s y) = true
    · simp only [h, if_true]
      rcases List.mem_cons.mp hx with rfl | hx'
      · exact absurd h (by simp [hfree])
      · exact ih seen x hx' hfree
    · rw [if_neg h]
      rcases List.mem_cons.mp hx with rfl | hx'
      · simp [pyEq_refl x]
      · by_cases hyx : pyEq y x = true
        · simp [hyx]
        · have hfree2 : (y :: seen).any (fun s => pyEq s x) = false := by
            simp only [List.any_cons, Bool.or_eq_false_iff]
            exact ⟨by simpa using hyx, hfree⟩
          simp [List.any_cons, ih (y :: seen) x hx' hfree2]

/-- C5: `remove_duplicated_values` returns the distinct elements in
first-occurrence order — a sublist of the input with no two `==`-equal
entries that still covers every input element up to Python `==` — it is
idempotent, and its key equality identifies `1` with `1.0` while keeping `1`
distinct from `'1'`; the disordered example `[1, 2, 1]` keeps the first
occurrence of `1`. -/
theorem c5_remove_duplicated_spec :
    ∀ (l : List PyVal),
      (remove_duplicated_values l).Sublist l ∧
      (remove_duplicated_values l).Pairwise (fun a b => pyEq a b = false) ∧
      (∀ x ∈ l, (remove_duplicated_values l).any (fun r => pyEq r x) = true) ∧
      remove_duplicated_values (remove_duplicated_values l) = remove_duplicated_values l ∧
      remove_duplicated_values [.int 1, .float 1] = [.int 1] ∧
      remove_duplicated_values [.int 1, .str "1"] = [.int 1, .str "1"] ∧
      remove_duplicated_values [.int 1, .int 2, .int 1] = [.int 1, .int 2] := by
  intro l
  refine ⟨dedupAux_sublist l [], dedupAux_pairwise l [], ?_, ?_, by decide, by decide, by decide⟩
  · intro x hx
    exact dedupAux_covers l [] x hx rfl
  · exact dedupAux_eq_self (dedupAux [] l) [] (fun x _ => rfl) (dedupAux_pairwise l [])

/-- Witness for `c5_remove_duplicated_spec`: the float `1.0` in the input is
covered by the integer `1` kept in the output. -/
theorem c5_remove_duplicated_spec_witness :
    PyVal.float 1 ∈ ([.int 1, .float 1] : List PyVal) ∧
    (remove_duplicated_values [.int 1, .float 1]).any
      (fun r => pyEq r (.float 1)) = true :=
  ⟨by decide, (c5_remove_duplicated_spec [.int 1, .float 1]).2.2.1 (.float 1) (by decide)⟩

/-! ## C6 -/

/-- C6 counterexample: filling `[None]` with the non-missing sentinel `0`
introduces a `0` that `remove_missing_values` keeps, so the composition does
contain an instance of the sentinel that was introduced by filling. -/
theorem c6_counterexample :
    PyVal.int 0 ∉ ([PyVal.none] : List PyVal) ∧
    remove_missing_values (fill_missing_values [PyVal.none] (.int 0)) = [.int 0] ∧
    PyVal.int 0 ∈ remove_missing_values (fill_missing_values [PyVal.none] (.int 0)) := by
  refine ⟨by decide, by decide, by decide⟩

/-- C6 amended: `len(remove-missing(s)) ≤ len(s)` holds for every sequence,
but the composition `remove-missing(fill-missing(s, X))` is free of the fill
sentinel only when `X` is itself a missing marker — in that case it equals
`remove-missing(s)` and contains no `X`; a non-missing sentinel introduced by
filling survives, as the counterexample shows. -/
theorem c6_fill_remove (s : List PyVal) (X : PyVal) (hX : isMissing X = true) :
    (remove_missing_values s).length ≤ s.length ∧
    remove_missing_values (fill_missing_values s X) = remove_missing_values s ∧
    X ∉ remove_missing_values (fill_missing_values s X) := by
  refine ⟨List.length_filter_le _ s, ?_, ?_⟩
  · induction s with
    | nil => rfl
    | cons a as ih =>
      by_cases ha : isMissing a = true
      · simp [remove_missing_values, fill_missing_values, List.filter_cons, ha, hX] at ih ⊢
        simpa [remove_missing_values, fill_missing_values] using ih
      · simp [remove_missing_values, fill_missing_values, List.filter_cons, ha] at ih ⊢
        simpa [remove_missing_values, fill_missing_values] using ih
  · intro hmem
    have h2 := List.of_mem_filter hmem
    simp only [Bool.not_eq_true'] at h2
    rw [hX] at h2
    exact absurd h2 (by simp)

/-- Witness for `c6_fill_remove` with the missing marker `nan` as sentinel. -/
theorem c6_fill_remove_witness :
    isMissing PyVal.nan = true ∧
    PyVal.nan ∉ remove_missing_values (fill_missing_values [PyVal.none, .int 3] .nan) :=
  ⟨rfl, (c6_fill_remove [PyVal.none, .int 3] .nan rfl).2.2⟩

/-! ## C7 -/

theorem runsBy_nil (p : Char → Bool) : runsBy p [] = [] := rfl

theorem runsBy_singleton (p : Char → Bool) (c : Char) :
    runsBy p [c] = if p c then [[c]] else [] := rfl

theorem runsBy_cons_cons (p : Char → Bool) (c d : Char) (cs' : List Char) :
    runsBy p (c :: d :: cs')
      = if p c then
          (if p d then (c :: (runsBy p (d :: cs')).headD []) :: (runsBy p (d :: cs')).tail
           else [c] :: runsBy p (d :: cs'))
        else runsBy p (d :: cs') := rfl

theorem runsBy_cons_neg (p : Char → Bool) (c : Char) (cs : List Char) (hc : p c = false) :
    runsBy p (c :: cs) = runsBy p cs := by
  cases cs <;> simp [runsBy, hc]

theorem runsBy_congr :
    ∀ (l : List Char) (p q : Char → Bool), (∀ c ∈ l, p c = q c) → runsBy p l = runsBy q l := by
  intro l
  induction l with
  | nil => intro p q _; rfl
  | cons c cs ih =>
    intro p q h
    have hc : p c = q c := h c (by simp)
    cases cs with
    | nil => rw [runsBy_singleton, runsBy_singleton, hc]
    | cons d cs' =>
      have hd : p d = q d := h d (by simp)
      have hrest : runsBy p (d :: cs') = runsBy q (d :: cs') :=
        ih p q (fun e he => h e (List.mem_cons_of_mem c he))
      rw [runsBy_cons_cons, runsBy_cons_cons, hrest, hc, hd]

theorem runsBy_all (p : Char → Bool) :
    ∀ (l : List Char) r, r ∈ runsBy p l → r.all p = true := by
  intro l
  induction l with
  | nil => intro r hr; simp [runsBy_nil] at hr
  | cons c cs ih =>
    intro r hr
    by_cases hc : p c = true
    · cases cs with
      | nil =>
        rw [runsBy_singleton, hc, if_pos rfl] at hr
        rcases List.mem_singleton.mp hr with rfl
        simp [hc]
      | cons d cs' =>
        by_cases hd : p d = true
        · rw [runsBy_cons_cons, hc, hd] at hr
          simp only [if_pos rfl] at hr
          rcases List.mem_cons.mp hr with rfl | hr'
          · cases hrest : runsBy p (d :: cs') with
            | nil => simp [hc]
            | cons r0 rs =>
              have h0 : r0.all p = true := ih r0 (by simp [hrest])
              simp only [List.headD_cons, List.all_cons, hc, Bool.true_and]
              exact h0
          · cases hrest : runsBy p (d :: cs') with
            | nil => rw [hrest] at hr'; simp at hr'
            | cons r0 rs =>
              rw [hrest] at hr'
              exact ih r (by rw [hrest]; exact List.mem_cons_of_mem r0 hr')
        · have hd' : p d = false := by simpa using hd
          rw [runsBy_cons_cons, hc, hd'] at hr
          simp only [if_pos rfl, if_neg Bool.false_ne_true] at hr
          rcases List.mem_cons.mp hr with rfl | hr'
          · simp [hc]
          · exact ih r hr'
    · have hc' : p c = false := by simpa using hc
      rw [runsBy_cons_neg p c cs hc'] at hr
      exact ih r hr

/-- C7 counterexample: on the ASCII text `a_b` the code's pattern
`\b[a-zA-Z0-9]+\b` finds no token at all — the underscore is a word character,
so no word boundary separates it from the adjacent letters — while the claim's
reading (maximal runs of ASCII alphanumerics) produces `["a", "b"]`. -/
theorem c7_counterexample :
    tokenize_text ['a', '_', 'b'] = [] ∧
    specTokenize ['a', '_', 'b'] = [['a'], ['b']] :=
  ⟨by decide, by decide⟩

/-- C7 amended: `tokenize_text` lower-cases the input and returns, in order,
the maximal runs of word characters that consist entirely of ASCII
alphanumerics; on ASCII text containing no underscore this coincides with the
claimed "maximal runs of ASCII alphanumerics", and empty text yields the empty
sequence.  (Runs adjacent to an underscore are dropped, per the
counterexample.) -/
theorem c7_tokenize_maximal_runs (text : List Char)
    (_hascii : ∀ c ∈ text, c.toNat < 128) (hus : '_' ∉ text) :
    tokenize_text text = specTokenize text ∧ tokenize_text [] = [] := by
  have hlow : ∀ c ∈ text.map lowerChar, isWordChar c = isAsciiAlnum c := by
    intro c hc
    rcases List.mem_map.mp hc with ⟨c0, hc0, rfl⟩
    have hne : lowerChar c0 ≠ '_' :=
      lowerChar_ne_underscore (fun h => hus (h ▸ hc0))
    simp [isWordChar, hne]
  refine ⟨?_, rfl⟩
  rw [tokenize_text, specTokenize,
    runsBy_congr (text.map lowerChar) isWordChar isAsciiAlnum hlow]
  exact List.filter_eq_self.mpr
    (fun r hr => runsBy_all isAsciiAlnum (text.map lowerChar) r hr)

/-- Witness for `c7_tokenize_maximal_runs` on the ASCII text `Hi!`. -/
theorem c7_tokenize_maximal_runs_witness :
    (∀ c ∈ (['H', 'i', '!'] : List Char), c.toNat < 128) ∧
    '_' ∉ (['H', 'i', '!'] : List Char) ∧
    tokenize_text ['H', 'i', '!'] = specTokenize ['H', 'i', '!'] :=
  ⟨by decide, by decide,
    (c7_tokenize_maximal_runs ['H', 'i', '!'] (by decide) (by decide)).1⟩

/-! ## C3 -/

theorem getElem_cons_set_perm {α : Type} :
    ∀ (xs : List α) (m : Nat) (x : α) (h : m < xs.length),
      List.Perm (xs[m] :: xs.set m x) (x :: xs) := by
  intro xs
  induction xs with
  | nil => intro m x h; simp at h
  | cons y ys ih =>
    intro m x h
    cases m with
    | zero => exact List.Perm.swap x y ys
    | succ k =>
      have hk : k < ys.length := by simpa using h
      simp only [List.getElem_cons_succ, List.set_cons_succ]
      exact List.Perm.trans (List.Perm.swap y (ys[k]) (ys.set k x))
        (List.Perm.trans (List.Perm.cons y (ih k x hk)) (List.Perm.swap x y ys))

theorem set_set_swap_perm {α : Type} :
    ∀ (l : List α) (i j : Nat) (hi : i < l.length) (hj : j < l.length),
      List.Perm ((l.set i l[j]).set j l[i]) l := by
  intro l
  induction l with
  | nil => intro i j hi; simp at hi
  | cons x xs ih =>
    intro i j hi hj
    cases i with
    | zero =>
      cases j with
      | zero => simp
      | succ m =>
        have hm : m < xs.length := by simpa using hj
        simp only [List.getElem_cons_succ, List.getElem_cons_zero, List.set_cons_zero,
          List.set_cons_succ]
        exact getElem_cons_set_perm xs m x hm
    | succ k =>
      cases j with
      | zero =>
        have hk : k < xs.length := by simpa using hi
        simp only [List.getElem_cons_succ, List.getElem_cons_zero, List.set_cons_zero,
          List.set_cons_succ]
        exact getElem_cons_set_perm xs k x hk
      | succ m =>
        have hk : k < xs.length := by simpa using hi
        have hm : m < xs.length := by simpa using hj
        simp only [List.getElem_cons_succ, List.set_cons_succ]
        exact List.Perm.cons x (ih k m hk hm)

theorem listSwap_perm {α : Type} (l : List α) (i j : Nat) :
    List.Perm (listSwap l i j) l := by
  rw [listSwap]
  cases hi : l[i]? with
  | none => exact List.Perm.refl l
  | some a =>
    cases hj : l[j]? with
    | none => exact List.Perm.refl l
    | some b =>
      obtain ⟨hi', rfl⟩ := List.getElem?_eq_some_iff.mp hi
      obtain ⟨hj', rfl⟩ := List.getElem?_eq_some_iff.mp hj
      exact set_set_swap_perm l i j hi' hj'

theorem fyLoop_perm {α : Type} (stream : Nat → Nat) :
    ∀ (n : Nat) (l : List α), List.Perm (fyLoop stream l n) l := by
  intro n
  induction n with
  | zero => intro l; exact List.Perm.refl l
  | succ i ih =>
    intro l
    exact List.Perm.trans (ih _) (listSwap_perm l (i + 1) (stream (i + 1) % (i + 2)))

/-- C3: for every input list, every seed (including none) and every ambient
entropy, `shuffle_list` returns a permutation of the input's elements (same
multiset, so sorting the output equals sorting the input); the input list
itself is untouched — the code shuffles the copy `values[:]` in place and the
embedding is pure. -/
theorem c3_shuffle_perm {α : Type} :
    ∀ (values : List α) (seed : Option Int) (entropy : Nat → Nat),
      List.Perm (shuffle_list values seed entropy) values := by
  intro values seed entropy
  exact fyLoop_perm _ _ values
